import Mathlib

/-!
# Verification of the trellobackup pipeline (src/main.go)

A shallow embedding of the trellobackup tool in Lean 4.  Strings are
modelled as `List Char`.  The embedding covers:

* the board-name sanitizer and export-filename construction
  (src/main.go:122-128);
* the asset-URL extractor, i.e. the Go regular expression
  `"url": ?"(https?://trello-<kind>.s3.amazonaws.com/[^"]+)"` applied with
  `FindAllStringSubmatch` (src/main.go:138) — note the unescaped dots in
  the pattern, which match any non-newline character;
* the path component of Go's `net/url.Parse` for http/https URLs, and the
  derived local asset filename (src/main.go:141-147);
* the asset downloader with its existence check, directory creation, file
  creation and body copy, together with the fatal-error behaviour
  (src/main.go:148-172);
* the per-board orchestration loop with closed-board skipping
  (src/main.go:101-175);
* the authentication flow (`getAuthentication`, the second-factor retry in
  `main`, `updateSession`) (src/main.go:63-82, 200-235);
* the account queries `getUsername` and `getBoards`
  (src/main.go:237-268).

External effects (network transport, the filesystem) are modelled by
explicit oracles and by an explicit list of filenames that exist on disk;
each run produces the ordered trace of observable effects as a list of
events.
-/

set_option maxRecDepth 10000

/-! ## Basic string utilities -/

/-- Drop a literal from the front of a string, or fail.  This is matching
a literal piece of a regular expression (or of a Go `strings.HasPrefix`
test) character by character. -/

def dropLit : List Char → List Char → Option (List Char)
  | [], s => some s
  | _ :: _, [] => none
  | c :: cs, d :: ds => if d = c then dropLit cs ds else none

/-- A string containing no double-quote character. -/

def quoteFree (s : List Char) : Bool :=
  s.all (fun c => c ≠ '"')

/-- Longest initial run of non-quote characters, plus the rest.  This is
the greedy matching of the character class `[^"]` in the Go pattern. -/

def spanNQ : List Char → List Char × List Char
  | [] => ([], [])
  | c :: cs =>
    if c = '"' then ([], c :: cs)
    else
      let (t, r) := spanNQ cs
      (c :: t, r)

/-! ## Board-name sanitization and export filenames (src/main.go:122-128) -/

/-- The character class `[a-zA-Z0-9_)(-]` of the sanitizing regular
expression at src/main.go:127. -/

def isAllowedChar (c : Char) : Bool :=
  ('a' ≤ c ∧ c ≤ 'z') ∨ ('A' ≤ c ∧ c ≤ 'Z') ∨ ('0' ≤ c ∧ c ≤ '9') ∨
    c = '_' ∨ c = ')' ∨ c = '(' ∨ c = '-'

/-- `regexp.MustCompile("[^a-zA-Z0-9_)(-]+").ReplaceAllString(name, "")`:
every maximal run of characters outside the class is replaced by the empty
string, which deletes exactly the characters outside the class, one by
one. -/

def sanitizeName : List Char → List Char
  | [] => []
  | c :: cs => if isAllowedChar c then c :: sanitizeName cs else sanitizeName cs

/-- The spec's description of sanitization: strip every character outside
`[a-zA-Z0-9_)(-]`, i.e. keep exactly the allowed characters. -/

def specSanitize (s : List Char) : List Char :=
  s.filter isAllowedChar

/-- `fmt.Sprintf("trello_%s_%s_%s_%s.json", time, username, board.ID,
sanitized)` at src/main.go:122-128. -/

def exportFilename (tm user id name : List Char) : List Char :=
  "trello_".toList ++ tm ++ "_".toList ++ user ++ "_".toList ++ id ++
    "_".toList ++ sanitizeName name ++ ".json".toList

/-- The filename layout stated by the spec:
`trello_<timestamp>_<username>_<boardID>_<sanitizedBoardName>.json`. -/

def specExportFilename (tm user id name : List Char) : List Char :=
  "trello_".toList ++ tm ++ "_".toList ++ user ++ "_".toList ++ id ++
    "_".toList ++ specSanitize name ++ ".json".toList

/-! ## Asset extraction (src/main.go:134-138)

The Go code iterates `t` over `[]string{"attachments", "backgrounds"}` and
applies `regexp.MustCompile("\"url\": ?\"(https?://trello-" + t +
".s3.amazonaws.com/[^\"]+)\"").FindAllStringSubmatch(string(buf), -1)`.
The dots of the pattern are unescaped, hence match any character other
than a newline.  `FindAllStringSubmatch` returns the successive leftmost
non-overlapping matches; the extractor below uses submatch 1, the
capturing group spanning the URL. -/

def attachmentsK : List Char :=
  ['a', 't', 't', 'a', 'c', 'h', 'm', 'e', 'n', 't', 's']

def backgroundsK : List Char :=
  ['b', 'a', 'c', 'k', 'g', 'r', 'o', 'u', 'n', 'd', 's']

/-- The literal `"url":` opening the pattern. -/

def urlKeyLit : List Char := ['"', 'u', 'r', 'l', '"', ':']

/-- The literal `://trello-` between the scheme and the kind name. -/

def trelloLit : List Char := [':', '/', '/', 't', 'r', 'e', 'l', 'l', 'o', '-']

def amazonawsLit : List Char := ['a', 'm', 'a', 'z', 'o', 'n', 'a', 'w', 's']

def comLit : List Char := ['c', 'o', 'm', '/']

/-- Matching of `https?` at the start of the captured group.  The `s?` is
greedy; when the optional `s` is consumed the following literal `://`
cannot start with `s`, so the backtracking alternative never succeeds and
consuming the `s` exactly when present is faithful. -/

def matchScheme (s : List Char) : Option (List Char × List Char) :=
  match dropLit ['h', 't', 't', 'p'] s with
  | none => none
  | some r =>
    if r.head? = some 's' then some (['h', 't', 't', 'p', 's'], r.tail)
    else some (['h', 't', 't', 'p'], r)

/-- Matching of `://trello-<kind>.s3.amazonaws.com/` where each `.` is the
unescaped regular-expression dot: any character except a newline. -/

def matchHost (kind : List Char) (s : List Char) : Option (List Char × List Char) :=
  match dropLit trelloLit s with
  | none => none
  | some s0 =>
    match dropLit kind s0 with
    | none => none
    | some s1 =>
      match s1 with
      | [] => none
      | c1 :: s2 =>
        if c1 = '\n' then none else
        match dropLit ['s', '3'] s2 with
        | none => none
        | some s3 =>
          match s3 with
          | [] => none
          | c2 :: s4 =>
            if c2 = '\n' then none else
            match dropLit amazonawsLit s4 with
            | none => none
            | some s5 =>
              match s5 with
              | [] => none
              | c3 :: s6 =>
                if c3 = '\n' then none else
                match dropLit comLit s6 with
                | none => none
                | some s7 =>
                  some (trelloLit ++ kind ++ c1 :: 's' :: '3' ::
                    c2 :: amazonawsLit ++ c3 :: comLit, s7)

/-- One attempted match of the extraction pattern at the current position:
literal `"url":`, an optional space (greedy, and a failing continuation
after consuming the space cannot be rescued by the empty alternative,
whose next literal is `"` and not a space), a quote, the capturing group
(scheme, host, then the greedy `[^"]+`, whose extent is forced to be the
maximal quote-free run because the character after it must be `"`), and
the closing quote.  Returns the captured group and the rest of the input
after the whole match. -/

def matchAt (kind s : List Char) : Option (List Char × List Char) :=
  match dropLit urlKeyLit s with
  | none => none
  | some s1 =>
    let s2 := if s1.head? = some ' ' then s1.tail else s1
    match dropLit ['"'] s2 with
    | none => none
    | some s3 =>
      match matchScheme s3 with
      | none => none
      | some (sch, s4) =>
        match matchHost kind s4 with
        | none => none
        | some (host, s5) =>
          match spanNQ s5 with
          | ([], _) => none
          | (t :: ts, '"' :: rest2) => some (sch ++ host ++ t :: ts, rest2)
          | (_ :: _, _) => none

/-- `FindAllStringSubmatch(s, -1)`: scan left to right, at each position
attempt a match; on success emit the captured group and continue after
the end of the full match, otherwise advance one character.  Every match
of this pattern is nonempty, so fuel equal to the input length
suffices. -/

def findAllAux (kind : List Char) : Nat → List Char → List (List Char)
  | 0, _ => []
  | _ + 1, [] => []
  | n + 1, c :: cs =>
    match matchAt kind (c :: cs) with
    | some (g, r) => g :: findAllAux kind n r
    | none => findAllAux kind n cs

/-- The ordered list of URLs extracted from an export document for one
asset kind (src/main.go:138). -/

def findAll (kind s : List Char) : List (List Char) :=
  findAllAux kind s.length s

/-! ## Lemmas about the extractor -/

/-! ## Well-formed asset URLs and URL fields (spec §4.4, §8.5)

`specURL kind u` says that `u` is a well-formed asset URL for the kind in
the sense of the spec: an `http`/`https` URL under the storage host
`trello-<kind>.s3.amazonaws.com`, with a nonempty remainder that contains
no quote (so that the URL is a single JSON string value). -/

/-- The literal host tail `.s3.amazonaws.com/` with real dots. -/

def dotHostLit : List Char :=
  ['.', 's', '3', '.', 'a', 'm', 'a', 'z', 'o', 'n', 'a', 'w', 's', '.',
   'c', 'o', 'm', '/']

/-- Modelled from the spec: a well-formed asset URL of a kind — `http` or
`https` scheme, the kind's storage host `trello-<kind>.s3.amazonaws.com`,
and a nonempty quote-free path remainder. -/

def specURL (kind u : List Char) : Bool :=
  match dropLit ['h', 't', 't', 'p'] u with
  | none => false
  | some r =>
    match dropLit (trelloLit ++ kind ++ dotHostLit)
        (if r.head? = some 's' then r.tail else r) with
    | none => false
    | some tail => decide (tail ≠ []) && quoteFree tail

/-- A JSON URL field as it occurs in an export document:
`"url": "<u>"`. -/

def fieldOf (u : List Char) : List Char :=
  ['"', 'u', 'r', 'l', '"', ':', ' ', '"'] ++ u ++ ['"']

/-- An export document built from pieces `(pre, kind, url)`: arbitrary
quote-free filler followed by a URL field. -/

def docOf : List (List Char × List Char × List Char) → List Char
  | [] => []
  | (pre, _, u) :: rest => pre ++ fieldOf u ++ docOf rest

/-- The URLs of the pieces of one kind, in order, duplicates kept. -/

def kindUrls (kind : List Char) :
    List (List Char × List Char × List Char) → List (List Char)
  | [] => []
  | (_, k, u) :: rest =>
    if k = kind then u :: kindUrls kind rest else kindUrls kind rest

/-- A good piece: quote-free filler and a well-formed URL of one of the
two asset kinds. -/

def goodPiece (p : List Char × List Char × List Char) : Prop :=
  quoteFree p.1 = true ∧
    ((p.2.1 = attachmentsK ∧ specURL attachmentsK p.2.2 = true) ∨
     (p.2.1 = backgroundsK ∧ specURL backgroundsK p.2.2 = true))

instance goodPieceDecidable (p : List Char × List Char × List Char) :
    Decidable (goodPiece p) := by
  unfold goodPiece; infer_instance

/-! ## URL parsing and derived asset filenames (src/main.go:141-147)

The Go code parses each extracted URL with `url.Parse` and derives the
local filename as `filepath.Join(t, strings.Replace(u.Path, "/", "_",
-1))`.  `url.Parse` lives in Go's standard library, outside this
repository; the model below follows its behaviour for the http/https URLs
the extractor can produce: reject ASCII control characters, cut the
fragment at the first `#`, cut the query at the first `?`, strip the
`http://`/`https://` scheme prefix, split the authority at the first `/`,
validate userinfo/port/escapes in the authority (bracketed IPv6 hosts are
out of the model's scope), and percent-decode the remainder, which is the
`Path` field. -/

def isCtlChar (c : Char) : Bool :=
  c.toNat < 32 || c.toNat == 127

def hexVal (c : Char) : Option Nat :=
  if '0' ≤ c ∧ c ≤ '9' then some (c.toNat - 48)
  else if 'a' ≤ c ∧ c ≤ 'f' then some (c.toNat - 87)
  else if 'A' ≤ c ∧ c ≤ 'F' then some (c.toNat - 55)
  else none

/-- Percent-decoding as in `net/url.unescape`: every `%` must be followed
by two hex digits, otherwise parsing fails. -/

def unescapeP : List Char → Option (List Char)
  | [] => some []
  | c :: rest =>
    if c = '%' then
      match rest with
      | h1 :: h2 :: rest2 =>
        match hexVal h1, hexVal h2, unescapeP rest2 with
        | some a, some b, some r => some (Char.ofNat (16 * a + b) :: r)
        | _, _, _ => none
      | [] => none
      | [_] => none
    else
      (unescapeP rest).map (fun r => c :: r)

def validUserinfoChar (c : Char) : Bool :=
  ('A' ≤ c ∧ c ≤ 'Z') || ('a' ≤ c ∧ c ≤ 'z') || ('0' ≤ c ∧ c ≤ '9') ||
    c ∈ ['-', '.', '_', ':', '~', '!', '$', '&', Char.ofNat 39, '(', ')',
         '*', '+', ',', ';', '=', '%', '@']

/-- `validOptionalPort`: if the host contains a colon, everything after
the last colon must be decimal digits. -/

def portSplitOK (host : List Char) : Bool :=
  if host.contains ':' then
    (host.reverse.takeWhile (fun c => c ≠ ':')).all (fun c => '0' ≤ c ∧ c ≤ '9')
  else true

/-- `parseAuthority`: split the userinfo at the last `@`, validate its
characters, and validate the host (no brackets in this model, optional
numeric port, valid percent-escapes). -/

def parseAuthorityOK (auth : List Char) : Bool :=
  let host := if auth.contains '@'
    then (auth.reverse.takeWhile (fun c => c ≠ '@')).reverse else auth
  let userinfo := if auth.contains '@'
    then ((auth.reverse.dropWhile (fun c => c ≠ '@')).reverse).dropLast else []
  userinfo.all validUserinfoChar && (unescapeP userinfo).isSome &&
    !host.contains '[' && !host.contains ']' && portSplitOK host &&
    (unescapeP host).isSome

def stripHTTPScheme (s : List Char) : Option (List Char) :=
  match dropLit ['h', 't', 't', 'p', ':', '/', '/'] s with
  | some r => some r
  | none => dropLit ['h', 't', 't', 'p', 's', ':', '/', '/'] s

/-- The `Path` field produced by `url.Parse` for an http/https URL, or
`none` when parsing fails. -/

def goURLPath (u : List Char) : Option (List Char) :=
  if u.any isCtlChar then none
  else
    match stripHTTPScheme ((u.takeWhile (fun c => c ≠ '#')).takeWhile (fun c => c ≠ '?')) with
    | none => none
    | some rest =>
      if parseAuthorityOK (rest.takeWhile (fun c => c ≠ '/')) then
        unescapeP (rest.dropWhile (fun c => c ≠ '/'))
      else none

/-- `strings.Replace(u.Path, "/", "_", -1)` (src/main.go:147). -/

def replaceSlash (p : List Char) : List Char :=
  p.map (fun c => if c = '/' then '_' else c)

/-- `filepath.Join(t, name)`: with a nonempty cleaned second component the
result is `t/name`; with an empty second component the result is `t`
itself (`Join` drops empty elements). -/

def joinKind (t p : List Char) : List Char :=
  if p = [] then t else t ++ '/' :: p

/-- The local filename derived for an asset URL (src/main.go:141-147), or
`none` when `url.Parse` fails (which the program treats as fatal). -/

def deriveFn (t u : List Char) : Option (List Char) :=
  match goURLPath u with
  | none => none
  | some p => some (joinKind t (replaceSlash p))

/-! ## The per-board pipeline: events, oracles, downloader
(src/main.go:101-175)

A run is modelled against an oracle fixing the outcome of every external
effect and the body of every board export, and against the list `fs` of
filenames existing on disk.  Each step produces the ordered trace of
observable effects; `true` in the last component means the run aborted
(`os.Exit(1)`). -/

inductive Ev where
  | getBoard (url : List Char)
  | writeExport (fn : List Char)
  | logSkip (id : List Char)
  | getAsset (url : List Char)
  | mkdir (dir : List Char)
  | createFile (fn : List Char)
  | copyBody (fn : List Char)
  | authReq (totpCode : Option (List Char))
  | sessionReq (code : List Char) (token : List Char)
  deriving DecidableEq, Repr

structure Oracle where
  /-- transport outcome of the asset GET (src/main.go:152) -/
  getOk : List Char → Bool
  /-- outcome of `os.Create` (src/main.go:159) -/
  createOk : List Char → Bool
  /-- outcome of `io.Copy` (src/main.go:166) -/
  copyOk : List Char → Bool
  /-- outcome of `os.MkdirAll` (src/main.go:158); the code discards it -/
  mkdirOk : List Char → Bool
  /-- outcome of the board-JSON GET and body read (src/main.go:109-120) -/
  boardOk : List Char → Bool
  /-- body of the board export -/
  boardBody : List Char → List Char
  /-- outcome of `ioutil.WriteFile` for the export (src/main.go:122-128) -/
  writeOk : List Char → Bool

/-- One iteration of the download loop (src/main.go:139-172) for URL `u`
of kind `t`.  Faithful to the code: the URL is parsed first (a parse
error is fatal); `os.Stat` existence of the derived filename is the only
skip condition; the GET is issued *before* `os.MkdirAll`; the result of
`os.MkdirAll` is discarded (a directory-creation failure is not fatal by
itself); `os.Create` puts the file on disk before `io.Copy` runs, so a
failed copy aborts but leaves the (truncated) file on disk. -/

def dlStep (o : Oracle) (t u : List Char) (fs : List (List Char)) :
    List Ev × List (List Char) × Bool :=
  match deriveFn t u with
  | none => ([], fs, true)
  | some fn =>
    if fn ∈ fs then ([], fs, false)
    else if !o.getOk u then ([Ev.getAsset u], fs, true)
    else if !o.createOk fn then
      ([Ev.getAsset u, Ev.mkdir t, Ev.createFile fn], fs, true)
    else if !o.copyOk fn then
      ([Ev.getAsset u, Ev.mkdir t, Ev.createFile fn, Ev.copyBody fn], fn :: fs, true)
    else
      ([Ev.getAsset u, Ev.mkdir t, Ev.createFile fn, Ev.copyBody fn], fn :: fs, false)

/-- The download loop over the extracted URLs of one kind
(src/main.go:138-173); a fatal step stops the loop. -/

def dlList (o : Oracle) (t : List Char) :
    List (List Char) → List (List Char) → List Ev × List (List Char) × Bool
  | [], fs => ([], fs, false)
  | u :: us, fs =>
    match dlStep o t u fs with
    | (evs, fs1, true) => (evs, fs1, true)
    | (evs, fs1, false) =>
      match dlList o t us fs1 with
      | (evs2, fs2, ab) => (evs ++ evs2, fs2, ab)

/-- The asset phase for one export document: both kinds in order
(src/main.go:134). -/

def runAssets (o : Oracle) (doc : List Char) (fs : List (List Char)) :
    List Ev × List (List Char) × Bool :=
  match dlList o attachmentsK (findAll attachmentsK doc) fs with
  | (ev1, fs1, true) => (ev1, fs1, true)
  | (ev1, fs1, false) =>
    match dlList o backgroundsK (findAll backgroundsK doc) fs1 with
    | (ev2, fs2, ab) => (ev1 ++ ev2, fs2, ab)

def isGetFor (u : List Char) : Ev → Bool
  | Ev.getAsset v => v == u
  | _ => false

/-- The number of download attempts (network GETs) for a URL in a
trace. -/

def getCount (u : List Char) (evs : List Ev) : Nat :=
  evs.countP (isGetFor u)

/-- An oracle in which every external effect succeeds and every export
body is empty. -/

def allOk : Oracle :=
  { getOk := fun _ => true, createOk := fun _ => true, copyOk := fun _ => true,
    mkdirOk := fun _ => true, boardOk := fun _ => true,
    boardBody := fun _ => [], writeOk := fun _ => true }

/-! ## Boards and the per-board loop (src/main.go:101-175, 254-268) -/

structure Board where
  ShortURL : List Char
  ShortLink : List Char
  ID : List Char
  Name : List Char
  Closed : Bool
  deriving DecidableEq, Repr

/-- One iteration of the board loop (src/main.go:101-175): a closed board
is only logged and skipped; otherwise the export is fetched, written to
the timestamped file, and both asset kinds are processed. -/

def processBoard (o : Oracle) (tm user : List Char) (b : Board)
    (fs : List (List Char)) : List Ev × List (List Char) × Bool :=
  if b.Closed then ([Ev.logSkip b.ID], fs, false)
  else
    let jurl := b.ShortURL ++ ".json".toList
    if !o.boardOk jurl then ([Ev.getBoard jurl], fs, true)
    else
      let fn := exportFilename tm user b.ID b.Name
      if !o.writeOk fn then ([Ev.getBoard jurl, Ev.writeExport fn], fs, true)
      else
        match runAssets o (o.boardBody jurl) fs with
        | (ev, fs1, ab) => (Ev.getBoard jurl :: Ev.writeExport fn :: ev, fs1, ab)

/-- The loop over all boards; a fatal step aborts the whole run. -/

def runBoards (o : Oracle) (tm user : List Char) :
    List Board → List (List Char) → List Ev × List (List Char) × Bool
  | [], fs => ([], fs, false)
  | b :: bs, fs =>
    match processBoard o tm user b fs with
    | (ev, fs1, true) => (ev, fs1, true)
    | (ev, fs1, false) =>
      match runBoards o tm user bs fs1 with
      | (ev2, fs2, ab) => (ev ++ ev2, fs2, ab)

/-! ## Authentication (src/main.go:56-85, 200-235)

`getAuthentication` issues one POST to the authentication endpoint; the
decoded JSON body has fields `Code` and `Error`.  The response is
modelled as `Option AuthObj`: `none` stands for a transport or
JSON-decode failure (whose wrapped error message is not an `api error:`
message and does not contain the second-factor marker).  The TOTP library
(`gotp`, an external dependency; the spec abstracts it as
`computeTimeBasedCode(secret, currentTime) -> code`) is modelled as an
arbitrary function `computeCode` from the secret to the code. -/

structure AuthObj where
  Code : List Char
  Error : List Char
  deriving DecidableEq, Repr

def startsWithL : List Char → List Char → Bool
  | [], _ => true
  | _ :: _, [] => false
  | c :: cs, d :: ds => c = d && startsWithL cs ds

/-- `strings.Contains(s, sub)`: `sub` occurs somewhere in `s`. -/

def containsL (sub : List Char) : List Char → Bool
  | [] => startsWithL sub []
  | c :: cs => startsWithL sub (c :: cs) || containsL sub cs

def twoFactorLit : List Char := "TWO_FACTOR_MISSING".toList

/-- `getAuthentication` (src/main.go:200-223) after the POST: a decode
failure is an error; a non-empty `Error` field is `api error: <Error>`;
otherwise the `Code` field is returned — even when it is empty. -/

def getAuthenticationM (resp : Option AuthObj) : Except (List Char) (List Char) :=
  match resp with
  | none => Except.error "request or decode error".toList
  | some obj =>
    if obj.Error ≠ [] then Except.error ("api error: ".toList ++ obj.Error)
    else Except.ok obj.Code

/-- The authentication phase of `main` (src/main.go:63-75): one request
without a TOTP code; if the error mentions `TWO_FACTOR_MISSING` and no
secret was supplied, fail; with a secret, exactly one resubmission
carrying the computed code.  `r1`/`r2` are the decoded responses to the
first and (potential) second request. -/

def authPhase (totp : List Char) (computeCode : List Char → List Char)
    (r1 r2 : Option AuthObj) : List Ev × Except (List Char) (List Char) :=
  match getAuthenticationM r1 with
  | Except.error e =>
    if containsL twoFactorLit e then
      if totp = [] then
        ([Ev.authReq none], Except.error "second factor required".toList)
      else
        ([Ev.authReq none, Ev.authReq (some (computeCode totp))],
         getAuthenticationM r2)
    else ([Ev.authReq none], Except.error e)
  | Except.ok c => ([Ev.authReq none], Except.ok c)

/-- The whole credential flow: authentication phase, then
`updateSession` (src/main.go:77-82, 225-235), which posts the returned
code with the login token and ignores the response body. -/

def credFlow (totp token : List Char) (computeCode : List Char → List Char)
    (r1 r2 : Option AuthObj) (sessionOk : Bool) :
    List Ev × Option (List Char) :=
  match authPhase totp computeCode r1 r2 with
  | (evs, Except.error e) => (evs, some e)
  | (evs, Except.ok code) =>
    if sessionOk then (evs ++ [Ev.sessionReq code token], none)
    else (evs ++ [Ev.sessionReq code token],
          some "could not update session".toList)

/-! ## Account queries (src/main.go:237-268) -/

/-- `getUsername` (src/main.go:237-252): the HTTP status is checked
first (`resp.StatusCode != http.StatusOK` is an error), then the body is
decoded; `none` stands for a malformed JSON body. -/

def getUsernameM (status : Nat) (decoded : Option (List Char)) :
    Except (List Char) (List Char) :=
  if status ≠ 200 then Except.error "response status".toList
  else match decoded with
    | none => Except.error "decode json".toList
    | some u => Except.ok u

/-- `getBoards` (src/main.go:254-268): the body is decoded as a JSON
list; the `status` parameter models `resp.StatusCode`, which this
function receives but never inspects — there is no status check in the
code. -/

def getBoardsM (status : Nat) (decoded : Option (List Board)) :
    Except (List Char) (List Board) :=
  match decoded with
  | none => Except.error "decode json".toList
  | some bs => Except.ok bs

/-! ## Theorems -/

theorem dropLit_self_append (lit s : List Char) :
    dropLit lit (lit ++ s) = some s := by
  induction lit with
  | nil => rfl
  | cons c cs ih => simp [dropLit, ih]

theorem spanNQ_append (t r : List Char) (ht : quoteFree t = true) :
    spanNQ (t ++ '"' :: r) = (t, '"' :: r) := by
  induction t with
  | nil => simp [spanNQ]
  | cons c cs ih =>
    simp only [quoteFree, List.all_cons, Bool.and_eq_true, decide_eq_true_eq] at ht
    simp only [quoteFree] at ih
    simp [spanNQ, ht.1, ih ht.2]

theorem sanitizeName_eq_filter (s : List Char) :
    sanitizeName s = s.filter isAllowedChar := by
  induction s with
  | nil => rfl
  | cons c cs ih =>
    by_cases h : isAllowedChar c = true
    · simp [sanitizeName, h, ih, List.filter]
    · simp only [Bool.not_eq_true] at h
      simp [sanitizeName, h, ih, List.filter]

/-- C4: For every fixed board name, board id, username, and timestamp, the
export filename is byte-for-byte reproducible and equals
`trello_<time>_<username>_<boardID>_<sanitizedBoardName>.json`, where the
sanitized board name keeps exactly the characters in `[a-zA-Z0-9_)(-]`;
in particular `My/Board:2` sanitizes to `MyBoard2`. -/
theorem export_filename_deterministic_and_spec_shaped :
    (∀ tm user id name : List Char,
      exportFilename tm user id name = specExportFilename tm user id name) ∧
    sanitizeName "My/Board:2".toList = "MyBoard2".toList := by
  constructor
  · intro tm user id name
    simp [exportFilename, specExportFilename, specSanitize, sanitizeName_eq_filter]
  · decide

/-- C10: the board-name sanitizer is idempotent, and its output contains
only characters from the allowed class `[a-zA-Z0-9_)(-]`. -/
theorem sanitizeName_idempotent_and_allowed :
    ∀ s : List Char,
      sanitizeName (sanitizeName s) = sanitizeName s ∧
      (sanitizeName s).all isAllowedChar = true := by
  intro s
  induction s with
  | nil => constructor <;> rfl
  | cons c cs ih =>
    by_cases h : isAllowedChar c = true
    · simp [sanitizeName, h, ih.1, ih.2]
    · simp only [Bool.not_eq_true] at h
      simp [sanitizeName, h, ih.1, ih.2]

theorem attachmentsK_eq : attachmentsK = "attachments".toList := by decide

theorem backgroundsK_eq : backgroundsK = "backgrounds".toList := by decide

example :
    findAll attachmentsK
      "x(\"url\": \"https://trello-attachments.s3.amazonaws.com/a/b.png\")y".toList
    = ["https://trello-attachments.s3.amazonaws.com/a/b.png".toList] := by decide

example :
    findAll backgroundsK
      "x(\"url\": \"https://trello-attachments.s3.amazonaws.com/a/b.png\")y".toList
    = [] := by decide

example :
    findAll attachmentsK
      ("(\"url\":\"http://trello-attachments.s3.amazonaws.com/p\", \"url\": \"https://trello-backgrounds.s3.amazonaws.com/q\", \"url\": \"https://trello-attachments.s3.amazonaws.com/p\")").toList
    = ["http://trello-attachments.s3.amazonaws.com/p".toList,
       "https://trello-attachments.s3.amazonaws.com/p".toList] := by decide

theorem dropLit_some (lit : List Char) :
    ∀ s r : List Char, dropLit lit s = some r → s = lit ++ r := by
  induction lit with
  | nil => intro s r h; simpa [dropLit] using h
  | cons c cs ih =>
    intro s r h
    cases s with
    | nil => simp [dropLit] at h
    | cons d ds =>
      simp only [dropLit] at h
      by_cases hd : d = c
      · subst hd
        simp only [if_pos rfl] at h
        simpa using ih ds r h
      · simp [hd] at h

theorem dropLit_head_ne (c d : Char) (cs ds : List Char) (h : d ≠ c) :
    dropLit (c :: cs) (d :: ds) = none := by
  simp [dropLit, h]

/-- A literal that contains a quote can never be dropped from a quote-free
string. -/
theorem dropLit_quote_blocked (lit : List Char) :
    ∀ s : List Char, '"' ∈ lit → quoteFree s = true → dropLit lit s = none := by
  induction lit with
  | nil => intro s h; simp at h
  | cons c cs ih =>
    intro s hmem hs
    cases s with
    | nil => rfl
    | cons d ds =>
      simp only [dropLit]
      by_cases hd : d = c
      · subst hd
        simp only [quoteFree, List.all_cons, Bool.and_eq_true, decide_eq_true_eq] at hs
        rcases List.mem_cons.1 hmem with h1 | h1
        · exact absurd h1.symm hs.1
        · simp only [if_pos rfl]
          exact ih ds h1 (by simpa [quoteFree] using hs.2)
      · simp [hd]

theorem quoteFree_append (a b : List Char) :
    quoteFree (a ++ b) = (quoteFree a && quoteFree b) := by
  simp [quoteFree, List.all_append]

/-- No match can start at a character other than a double quote. -/
theorem matchAt_no_quote (kind : List Char) (c : Char) (cs : List Char)
    (h : c ≠ '"') : matchAt kind (c :: cs) = none := by
  simp [matchAt, urlKeyLit, dropLit, h]

/-- No match can start at a quote followed by a character other than `u`. -/
theorem matchAt_quote_not_u (kind : List Char) (c : Char) (x : List Char)
    (h : c ≠ 'u') : matchAt kind ('"' :: c :: x) = none := by
  simp [matchAt, urlKeyLit, dropLit, h]

/-- No match can start at a quote whose whole continuation is quote-free
(e.g. the closing quote of the last URL field of a document). -/
theorem matchAt_close_nil (kind pre : List Char) (hp : quoteFree pre = true) :
    matchAt kind ('"' :: pre) = none := by
  have hblock : dropLit ['u', 'r', 'l', '"', ':'] pre = none :=
    dropLit_quote_blocked _ pre (by decide) hp
  simp [matchAt, urlKeyLit, dropLit, hblock]

/-- No match can start at the closing quote of a URL field when the
continuation is a quote-free stretch followed by the literal `"url":` of
the next field: the five characters after the starting quote would have to
be `url":`, and the only quote available after the stretch is immediately
followed by `u`, not by `:`. -/
theorem matchAt_close_quote (kind pre z : List Char) (hp : quoteFree pre = true) :
    matchAt kind ('"' :: (pre ++ '"' :: 'u' :: 'r' :: 'l' :: '"' :: ':' :: z)) = none := by
  rcases pre with _ | ⟨c1, p1⟩
  · simp [matchAt, urlKeyLit, dropLit]
  · simp only [quoteFree, List.all_cons, Bool.and_eq_true, decide_eq_true_eq] at hp
    by_cases h1 : c1 = 'u'
    · subst h1
      rcases p1 with _ | ⟨c2, p2⟩
      · simp [matchAt, urlKeyLit, dropLit]
      · simp only [List.all_cons, Bool.and_eq_true, decide_eq_true_eq] at hp
        by_cases h2 : c2 = 'r'
        · subst h2
          rcases p2 with _ | ⟨c3, p3⟩
          · simp [matchAt, urlKeyLit, dropLit]
          · simp only [List.all_cons, Bool.and_eq_true, decide_eq_true_eq] at hp
            by_cases h3 : c3 = 'l'
            · subst h3
              rcases p3 with _ | ⟨c4, p4⟩
              · simp [matchAt, urlKeyLit, dropLit]
              · simp only [List.all_cons, Bool.and_eq_true, decide_eq_true_eq] at hp
                simp [matchAt, urlKeyLit, dropLit, hp.2.2.2.1]
            · simp [matchAt, urlKeyLit, dropLit, h3]
        · simp [matchAt, urlKeyLit, dropLit, h2]
    · simp [matchAt, urlKeyLit, dropLit, h1]

theorem findAllAux_step_none (kind : List Char) (n : Nat) (c : Char)
    (cs : List Char) (h : matchAt kind (c :: cs) = none) :
    findAllAux kind (n + 1) (c :: cs) = findAllAux kind n cs := by
  simp [findAllAux, h]

theorem findAllAux_step_some (kind : List Char) (n : Nat) (c : Char)
    (cs g r : List Char) (h : matchAt kind (c :: cs) = some (g, r)) :
    findAllAux kind (n + 1) (c :: cs) = g :: findAllAux kind n r := by
  simp [findAllAux, h]

/-- Scanning steps silently over a quote-free stretch of the input. -/
theorem findAllAux_skip (kind : List Char) :
    ∀ (p : List Char), quoteFree p = true →
      ∀ (n : Nat) (s : List Char),
        findAllAux kind (n + p.length) (p ++ s) = findAllAux kind n s := by
  intro p
  induction p with
  | nil => intro _ n s; simp
  | cons c cs ih =>
    intro hp n s
    simp only [quoteFree, List.all_cons, Bool.and_eq_true, decide_eq_true_eq] at hp
    have h1 : matchAt kind (c :: (cs ++ s)) = none := matchAt_no_quote kind c _ hp.1
    have h2 : n + (c :: cs).length = (n + cs.length) + 1 := by simp; omega
    calc findAllAux kind (n + (c :: cs).length) ((c :: cs) ++ s)
        = findAllAux kind ((n + cs.length) + 1) (c :: (cs ++ s)) := by rw [h2]; rfl
      _ = findAllAux kind (n + cs.length) (cs ++ s) := findAllAux_step_none _ _ _ _ h1
      _ = findAllAux kind n s := ih (by simpa [quoteFree] using hp.2) n s

/-- Inversion: a well-formed URL decomposes into scheme, host and
remainder. -/
theorem specURL_decomp (kind u : List Char) (h : specURL kind u = true) :
    ∃ opt tail : List Char,
      (opt = [] ∨ opt = ['s']) ∧
      u = ['h', 't', 't', 'p'] ++ opt ++ trelloLit ++ kind ++ dotHostLit ++ tail ∧
      tail ≠ [] ∧ quoteFree tail = true := by
  simp only [specURL] at h
  rcases h1 : dropLit ['h', 't', 't', 'p'] u with _ | r
  · rw [h1] at h; simp at h
  · rw [h1] at h
    have hu := dropLit_some _ _ _ h1
    simp only at h
    by_cases hs : r.head? = some 's'
    · rw [if_pos hs] at h
      rcases h2 : dropLit (trelloLit ++ kind ++ dotHostLit) r.tail with _ | tail
      · rw [h2] at h; simp at h
      · rw [h2] at h
        have hrt := dropLit_some _ _ _ h2
        simp only [Bool.and_eq_true, decide_eq_true_eq] at h
        rcases r with _ | ⟨c, rr⟩
        · simp at hs
        · simp only [List.head?_cons, Option.some.injEq] at hs
          subst hs
          simp only [List.tail_cons] at hrt
          refine ⟨['s'], tail, Or.inr rfl, ?_, h.1, h.2⟩
          simp [hu, hrt, ← List.append_assoc]
    · rw [if_neg hs] at h
      rcases h2 : dropLit (trelloLit ++ kind ++ dotHostLit) r with _ | tail
      · rw [h2] at h; simp at h
      · rw [h2] at h
        have hrt := dropLit_some _ _ _ h2
        simp only [Bool.and_eq_true, decide_eq_true_eq] at h
        refine ⟨[], tail, Or.inl rfl, ?_, h.1, h.2⟩
        simp [hu, hrt, ← List.append_assoc]

/-- A whole well-formed URL field matches, capturing exactly the URL. -/
theorem matchAt_field_match (kind u s : List Char) (h : specURL kind u = true) :
    matchAt kind (fieldOf u ++ s) = some (u, s) := by
  obtain ⟨opt, tail, hopt, hu, htne, htq⟩ := specURL_decomp kind u h
  subst hu
  obtain ⟨t, ts, rfl⟩ : ∃ t ts, tail = t :: ts := by
    cases tail with
    | nil => exact absurd rfl htne
    | cons t ts => exact ⟨t, ts, rfl⟩
  have hspan := spanNQ_append (t :: ts) s htq
  simp only [List.cons_append] at hspan
  rcases hopt with rfl | rfl <;>
    simp [matchAt, matchScheme, matchHost, fieldOf, urlKeyLit, trelloLit,
      dotHostLit, amazonawsLit, comLit, dropLit, dropLit_self_append,
      hspan, List.append_assoc]

/-- A URL field whose URL belongs to a kind whose name begins with a
different character never matches the other kind's pattern: the match
fails at the kind literal inside the host. -/
theorem matchAt_field_crossfail (c d : Char) (ck ot : List Char)
    (u s : List Char) (hcd : d ≠ c) (h : specURL (d :: ot) u = true) :
    matchAt (c :: ck) (fieldOf u ++ s) = none := by
  obtain ⟨opt, tail, hopt, hu, _, _⟩ := specURL_decomp (d :: ot) u h
  subst hu
  rcases hopt with rfl | rfl <;>
    simp [matchAt, matchScheme, matchHost, fieldOf, urlKeyLit, trelloLit,
      dropLit, hcd, List.append_assoc]

/-- A well-formed URL of either kind is quote-free and starts with `h`. -/
theorem specURL_shape (kind u : List Char) (hk : quoteFree kind = true)
    (h : specURL kind u = true) :
    quoteFree u = true ∧ ∃ w, u = 'h' :: w := by
  obtain ⟨opt, tail, hopt, hu, _, htq⟩ := specURL_decomp kind u h
  subst hu
  constructor
  · have hk' : ∀ x ∈ kind, x ≠ '"' := by simpa [quoteFree] using hk
    have ht' : ∀ x ∈ tail, x ≠ '"' := by simpa [quoteFree] using htq
    rcases hopt with rfl | rfl <;>
      · simp only [quoteFree_append, Bool.and_eq_true]
        exact ⟨⟨⟨⟨⟨by decide, by decide⟩, by decide⟩, hk⟩, by decide⟩, htq⟩
  · rcases hopt with rfl | rfl <;> exact ⟨_, rfl⟩

/-- Scanning walks over a URL field that does not match (a field of the
other kind) without finding any match inside it, and resumes right after
the field's closing quote. -/
theorem findAllAux_failpiece (kind u D : List Char) (m : Nat)
    (hfail : matchAt kind (fieldOf u ++ D) = none)
    (hqf : quoteFree u = true)
    (w : List Char) (hw : u = 'h' :: w)
    (hD : matchAt kind ('"' :: D) = none) :
    findAllAux kind (m + (fieldOf u).length) (fieldOf u ++ D)
      = findAllAux kind m D := by
  have hlen : (fieldOf u).length = u.length + 9 := by simp [fieldOf]
  have hshape : fieldOf u ++ D
      = '"' :: 'u' :: 'r' :: 'l' :: '"' :: ':' :: ' ' :: '"' :: (u ++ '"' :: D) := by
    simp [fieldOf]
  rw [hlen, hshape]
  rw [show m + (u.length + 9) = (m + u.length + 8) + 1 by omega]
  rw [findAllAux_step_none kind (m + u.length + 8) _ _ (hshape ▸ hfail)]
  rw [show m + u.length + 8 = (m + u.length + 7) + 1 by omega]
  rw [findAllAux_step_none kind _ _ _ (matchAt_no_quote kind 'u' _ (by decide))]
  rw [show m + u.length + 7 = (m + u.length + 6) + 1 by omega]
  rw [findAllAux_step_none kind _ _ _ (matchAt_no_quote kind 'r' _ (by decide))]
  rw [show m + u.length + 6 = (m + u.length + 5) + 1 by omega]
  rw [findAllAux_step_none kind _ _ _ (matchAt_no_quote kind 'l' _ (by decide))]
  rw [show m + u.length + 5 = (m + u.length + 4) + 1 by omega]
  rw [findAllAux_step_none kind _ _ _ (matchAt_quote_not_u kind ':' _ (by decide))]
  rw [show m + u.length + 4 = (m + u.length + 3) + 1 by omega]
  rw [findAllAux_step_none kind _ _ _ (matchAt_no_quote kind ':' _ (by decide))]
  rw [show m + u.length + 3 = (m + u.length + 2) + 1 by omega]
  rw [findAllAux_step_none kind _ _ _ (matchAt_no_quote kind ' ' _ (by decide))]
  subst hw
  simp only [List.cons_append]
  rw [show m + ('h' :: w).length + 2 = (m + ('h' :: w).length + 1) + 1 by omega]
  rw [findAllAux_step_none kind _ _ _ (matchAt_quote_not_u kind 'h' _ (by decide))]
  rw [show m + ('h' :: w).length + 1 = (m + 1) + ('h' :: w).length by omega]
  rw [show ('h' :: (w ++ '"' :: D)) = ('h' :: w) ++ '"' :: D from rfl]
  rw [findAllAux_skip kind ('h' :: w) hqf (m + 1) ('"' :: D)]
  rw [findAllAux_step_none kind m _ _ hD]

/-- No match starts at the closing quote of a field followed by the rest
of a piece-built document. -/
theorem matchAt_quote_docOf (kind : List Char)
    (ps : List (List Char × List Char × List Char))
    (hps : ∀ p ∈ ps, goodPiece p) :
    matchAt kind ('"' :: docOf ps) = none := by
  cases ps with
  | nil => simpa [docOf] using matchAt_close_nil kind [] (by decide)
  | cons p r =>
    obtain ⟨pre2, k2, u2⟩ := p
    have h2 := (hps _ (List.mem_cons_self _ _)).1
    have hclose := matchAt_close_quote kind pre2
      (' ' :: '"' :: (u2 ++ '"' :: docOf r)) h2
    simpa [docOf, fieldOf, List.append_assoc] using hclose

/-- Extraction over a piece-built document returns exactly the URLs of the
pieces of the requested kind, in order. -/
theorem findAllAux_docOf (kind : List Char)
    (hk : kind = attachmentsK ∨ kind = backgroundsK) :
    ∀ (ps : List (List Char × List Char × List Char)),
      (∀ p ∈ ps, goodPiece p) →
      ∀ n : Nat,
        findAllAux kind (n + (docOf ps).length) (docOf ps) = kindUrls kind ps := by
  intro ps
  induction ps with
  | nil =>
    intro _ n
    cases n <;> rfl
  | cons p rest ih =>
    intro hps n
    obtain ⟨pre, k, u⟩ := p
    have hp := hps _ (List.mem_cons_self _ _)
    have hrest : ∀ q ∈ rest, goodPiece q := fun q hq => hps q (List.mem_cons_of_mem _ hq)
    have hD : matchAt kind ('"' :: docOf rest) = none :=
      matchAt_quote_docOf kind rest hrest
    have hdoc : docOf ((pre, k, u) :: rest) = pre ++ (fieldOf u ++ docOf rest) := by
      simp [docOf]
    rw [hdoc]
    rw [show n + (pre ++ (fieldOf u ++ docOf rest)).length
        = (n + (fieldOf u ++ docOf rest).length) + pre.length by
      simp [List.length_append]; omega]
    rw [findAllAux_skip kind pre hp.1 _ _]
    rcases hp.2 with ⟨hkA, huA⟩ | ⟨hkB, huB⟩
    · -- the piece is an attachments piece
      have hkA' : k = attachmentsK := hkA
      rcases hk with rfl | rfl
      · -- extracting attachments: the field matches
        have hm : matchAt attachmentsK (fieldOf u ++ docOf rest) = some (u, docOf rest) :=
          matchAt_field_match attachmentsK u (docOf rest) huA
        have hsh : fieldOf u ++ docOf rest
            = '"' :: ('u' :: 'r' :: 'l' :: '"' :: ':' :: ' ' :: '"' :: (u ++ '"' :: docOf rest)) := by
          simp [fieldOf]
        rw [show n + (fieldOf u ++ docOf rest).length
            = ((n + u.length + 8) + (docOf rest).length) + 1 by
          simp [List.length_append, fieldOf]; omega]
        rw [hsh]
        rw [findAllAux_step_some attachmentsK _ _ _ _ _ (hsh ▸ hm)]
        rw [ih hrest (n + u.length + 8)]
        simp [kindUrls, hkA']
      · -- extracting backgrounds: the attachments field fails and is walked over
        have hfail : matchAt backgroundsK (fieldOf u ++ docOf rest) = none :=
          matchAt_field_crossfail 'b' 'a'
            ['a', 'c', 'k', 'g', 'r', 'o', 'u', 'n', 'd', 's']
            ['t', 't', 'a', 'c', 'h', 'm', 'e', 'n', 't', 's']
            u (docOf rest) (by decide) huA
        obtain ⟨hqf, w, hw⟩ := specURL_shape attachmentsK u (by decide) huA
        rw [show n + (fieldOf u ++ docOf rest).length
            = (n + (docOf rest).length) + (fieldOf u).length by
          simp [List.length_append]; omega]
        rw [findAllAux_failpiece backgroundsK u (docOf rest) (n + (docOf rest).length)
          hfail hqf w hw hD]
        rw [ih hrest n]
        have : k ≠ backgroundsK := by rw [hkA']; decide
        simp [kindUrls, this]
    · -- the piece is a backgrounds piece
      have hkB' : k = backgroundsK := hkB
      rcases hk with rfl | rfl
      · -- extracting attachments: the backgrounds field fails and is walked over
        have hfail : matchAt attachmentsK (fieldOf u ++ docOf rest) = none :=
          matchAt_field_crossfail 'a' 'b'
            ['t', 't', 'a', 'c', 'h', 'm', 'e', 'n', 't', 's']
            ['a', 'c', 'k', 'g', 'r', 'o', 'u', 'n', 'd', 's']
            u (docOf rest) (by decide) huB
        obtain ⟨hqf, w, hw⟩ := specURL_shape backgroundsK u (by decide) huB
        rw [show n + (fieldOf u ++ docOf rest).length
            = (n + (docOf rest).length) + (fieldOf u).length by
          simp [List.length_append]; omega]
        rw [findAllAux_failpiece attachmentsK u (docOf rest) (n + (docOf rest).length)
          hfail hqf w hw hD]
        rw [ih hrest n]
        have : k ≠ attachmentsK := by rw [hkB']; decide
        simp [kindUrls, this]
      · -- extracting backgrounds: the field matches
        have hm : matchAt backgroundsK (fieldOf u ++ docOf rest) = some (u, docOf rest) :=
          matchAt_field_match backgroundsK u (docOf rest) huB
        have hsh : fieldOf u ++ docOf rest
            = '"' :: ('u' :: 'r' :: 'l' :: '"' :: ':' :: ' ' :: '"' :: (u ++ '"' :: docOf rest)) := by
          simp [fieldOf]
        rw [show n + (fieldOf u ++ docOf rest).length
            = ((n + u.length + 8) + (docOf rest).length) + 1 by
          simp [List.length_append, fieldOf]; omega]
        rw [hsh]
        rw [findAllAux_step_some backgroundsK _ _ _ _ _ (hsh ▸ hm)]
        rw [ih hrest (n + u.length + 8)]
        simp [kindUrls, hkB']

theorem kindUrls_length (kind : List Char)
    (ps : List (List Char × List Char × List Char)) :
    (kindUrls kind ps).length = ps.countP (fun p => decide (p.2.1 = kind)) := by
  induction ps with
  | nil => rfl
  | cons p r ih =>
    obtain ⟨a, b, c⟩ := p
    by_cases h : b = kind <;> simp [kindUrls, h, List.countP_cons, ih]

/-- C1: for an export document containing N well-formed attachment URLs
and M well-formed background URLs in JSON `url` fields (duplicates
included, separated by arbitrary quote-free text), extraction returns
exactly the N attachment URLs and exactly the M background URLs, in text
order, each verbatim, with duplicates preserved. -/
theorem findAll_extracts_exactly_the_wellformed_urls
    (ps : List (List Char × List Char × List Char))
    (hps : ∀ p ∈ ps, goodPiece p) :
    findAll attachmentsK (docOf ps) = kindUrls attachmentsK ps ∧
    findAll backgroundsK (docOf ps) = kindUrls backgroundsK ps ∧
    (findAll attachmentsK (docOf ps)).length
      = ps.countP (fun p => decide (p.2.1 = attachmentsK)) ∧
    (findAll backgroundsK (docOf ps)).length
      = ps.countP (fun p => decide (p.2.1 = backgroundsK)) := by
  have hA := findAllAux_docOf attachmentsK (Or.inl rfl) ps hps 0
  have hB := findAllAux_docOf backgroundsK (Or.inr rfl) ps hps 0
  simp only [Nat.zero_add] at hA hB
  refine ⟨hA, hB, ?_, ?_⟩
  · rw [show findAll attachmentsK (docOf ps)
        = findAllAux attachmentsK (docOf ps).length (docOf ps) from rfl]
    rw [hA, kindUrls_length]
  · rw [show findAll backgroundsK (docOf ps)
        = findAllAux backgroundsK (docOf ps).length (docOf ps) from rfl]
    rw [hB, kindUrls_length]

theorem findAll_extracts_exactly_the_wellformed_urls_witness :
    (∀ p ∈ [(("x: 1, ").toList, attachmentsK,
              "https://trello-attachments.s3.amazonaws.com/a/b.png".toList),
            (", ".toList, backgroundsK,
              "http://trello-backgrounds.s3.amazonaws.com/bg.jpg".toList),
            (") ".toList, attachmentsK,
              "https://trello-attachments.s3.amazonaws.com/a/b.png".toList)],
        goodPiece p) ∧
    findAll attachmentsK (docOf
        [(("x: 1, ").toList, attachmentsK,
           "https://trello-attachments.s3.amazonaws.com/a/b.png".toList),
         (", ".toList, backgroundsK,
           "http://trello-backgrounds.s3.amazonaws.com/bg.jpg".toList),
         (") ".toList, attachmentsK,
           "https://trello-attachments.s3.amazonaws.com/a/b.png".toList)])
      = ["https://trello-attachments.s3.amazonaws.com/a/b.png".toList,
         "https://trello-attachments.s3.amazonaws.com/a/b.png".toList] ∧
    findAll backgroundsK (docOf
        [(("x: 1, ").toList, attachmentsK,
           "https://trello-attachments.s3.amazonaws.com/a/b.png".toList),
         (", ".toList, backgroundsK,
           "http://trello-backgrounds.s3.amazonaws.com/bg.jpg".toList),
         (") ".toList, attachmentsK,
           "https://trello-attachments.s3.amazonaws.com/a/b.png".toList)])
      = ["http://trello-backgrounds.s3.amazonaws.com/bg.jpg".toList] := by
  refine ⟨by decide, ?_, ?_⟩
  · rw [(findAll_extracts_exactly_the_wellformed_urls _ (by decide)).1]
    decide
  · rw [(findAll_extracts_exactly_the_wellformed_urls _ (by decide)).2.1]
    decide

theorem unescapeP_not_pct (c : Char) (w : List Char) (hc : ¬ c = '%') :
    unescapeP (c :: w) = (unescapeP w).map (fun r => c :: r) := by
  match w with
  | [] => simp [unescapeP, hc]
  | [x] => simp [unescapeP, hc]
  | h1 :: h2 :: r => rw [unescapeP.eq_2, if_neg hc]

example :
    deriveFn attachmentsK
      "https://trello-attachments.s3.amazonaws.com/a/b.png".toList
    = some "attachments/_a_b.png".toList := by decide

example :
    goURLPath "https://trello-attachments?s3.amazonaws.com/foo".toList
    = some [] := by decide

theorem dropWhile_slash_shape (s : List Char) :
    s.dropWhile (fun c => c ≠ '/') = [] ∨
    ∃ w, s.dropWhile (fun c => c ≠ '/') = '/' :: w := by
  induction s with
  | nil => exact Or.inl rfl
  | cons c cs ih =>
    by_cases h : c = '/'
    · subst h
      right
      exact ⟨cs, by simp [List.dropWhile]⟩
    · simpa [List.dropWhile, h] using ih

theorem unescapeP_slash (w p : List Char) (h : unescapeP ('/' :: w) = some p) :
    ∃ r, p = '/' :: r := by
  rw [unescapeP_not_pct _ _ (by decide)] at h
  rcases hw : unescapeP w with _ | r
  · rw [hw] at h; simp at h
  · rw [hw] at h
    simp only [Option.map, Option.some.injEq] at h
    exact ⟨r, h.symm⟩

/-- C8 (amended): the derived local filename is the kind directory joined
with the URL's parsed path, slashes replaced by underscores; when the
parsed path is nonempty it begins with `/`, so the file's base name
begins with `_`.  (An extracted URL in which a wildcard position of the
pattern is matched by `?` or `#` can parse with an *empty* path; the
derived filename is then the bare kind directory, with no underscore —
see the counterexample.) -/
theorem derive_filename_shape (t u p : List Char) (h : goURLPath u = some p) :
    deriveFn t u = some (joinKind t (replaceSlash p)) ∧
    (p ≠ [] → ∃ q, p = '/' :: q ∧
      deriveFn t u = some (t ++ '/' :: '_' :: replaceSlash q)) := by
  refine ⟨by simp [deriveFn, h], ?_⟩
  intro hne
  obtain ⟨q, hq⟩ : ∃ q, p = '/' :: q := by
    simp only [goURLPath] at h
    by_cases h1 : (u.any isCtlChar) = true
    · rw [if_pos h1] at h; simp at h
    · rw [if_neg h1] at h
      rcases h2 : stripHTTPScheme ((u.takeWhile (fun c => c ≠ '#')).takeWhile
          (fun c => c ≠ '?')) with _ | rest
      · rw [h2] at h; simp at h
      · rw [h2] at h
        have h' : (if parseAuthorityOK (rest.takeWhile (fun c => c ≠ '/')) = true
            then unescapeP (rest.dropWhile (fun c => c ≠ '/'))
            else none) = some p := h
        by_cases h3 : parseAuthorityOK (rest.takeWhile (fun c => c ≠ '/')) = true
        · rw [if_pos h3] at h'
          rcases dropWhile_slash_shape rest with h4 | ⟨w, h4⟩
          · rw [h4] at h'
            rw [show unescapeP [] = some [] from rfl] at h'
            simp only [Option.some.injEq] at h'
            exact absurd h'.symm hne
          · rw [h4] at h'
            exact unescapeP_slash w p h'
        · rw [if_neg h3] at h'; simp at h'
  refine ⟨q, hq, ?_⟩
  subst hq
  simp [deriveFn, h, joinKind, replaceSlash]

theorem derive_filename_shape_witness :
    deriveFn attachmentsK
        "https://trello-attachments.s3.amazonaws.com/a/b.png".toList
      = some (joinKind attachmentsK (replaceSlash "/a/b.png".toList)) ∧
    ∃ q, "/a/b.png".toList = '/' :: q ∧
      deriveFn attachmentsK
          "https://trello-attachments.s3.amazonaws.com/a/b.png".toList
        = some (attachmentsK ++ '/' :: '_' :: replaceSlash q) :=
  ⟨(derive_filename_shape attachmentsK
      "https://trello-attachments.s3.amazonaws.com/a/b.png".toList
      "/a/b.png".toList (by decide)).1,
   (derive_filename_shape attachmentsK
      "https://trello-attachments.s3.amazonaws.com/a/b.png".toList
      "/a/b.png".toList (by decide)).2 (by decide)⟩

/-- C8 counterexample: the URL
`https://trello-attachments?s3.amazonaws.com/foo` is extracted by the
attachments pattern (the wildcard dot after the kind name matches `?`),
parses successfully with an empty path, and derives the local filename
`attachments` — whose base name contains no underscore at all. -/
theorem derive_filename_counterexample :
    ("https://trello-attachments?s3.amazonaws.com/foo".toList ∈
        findAll attachmentsK
          "(\"url\": \"https://trello-attachments?s3.amazonaws.com/foo\")".toList) ∧
    goURLPath "https://trello-attachments?s3.amazonaws.com/foo".toList = some [] ∧
    deriveFn attachmentsK "https://trello-attachments?s3.amazonaws.com/foo".toList
      = some attachmentsK ∧
    '_' ∉ attachmentsK := by decide

theorem dlStep_skip (o : Oracle) (t u fs fn)
    (h1 : deriveFn t u = some fn) (h2 : fn ∈ fs) :
    dlStep o t u fs = ([], fs, false) := by
  simp [dlStep, h1, h2]

theorem dlStep_mono (o : Oracle) (t u : List Char) (fs : List (List Char)) :
    fs ⊆ (dlStep o t u fs).2.1 := by
  rcases h : deriveFn t u with _ | fn
  · simp [dlStep, h]
  · by_cases h2 : fn ∈ fs
    · simp [dlStep, h, h2]
    · cases h3 : o.getOk u <;> cases h4 : o.createOk fn <;> cases h5 : o.copyOk fn <;>
        simp [dlStep, h, h2, h3, h4, h5, List.subset_cons_of_subset, List.Subset.refl]

theorem dlStep_getCount_other (o : Oracle) (t u' u : List Char)
    (fs : List (List Char)) (hne : u' ≠ u) :
    getCount u (dlStep o t u' fs).1 = 0 := by
  rcases h : deriveFn t u' with _ | fn
  · simp [dlStep, h, getCount]
  · by_cases h2 : fn ∈ fs
    · simp [dlStep, h, h2, getCount]
    · cases h3 : o.getOk u' <;> cases h4 : o.createOk fn <;> cases h5 : o.copyOk fn <;>
        simp [dlStep, h, h2, h3, h4, h5, getCount, List.countP_cons, isGetFor,
          beq_iff_eq, hne]

theorem dlStep_getCount_self (o : Oracle) (t u : List Char)
    (fs : List (List Char)) :
    getCount u (dlStep o t u fs).1 ≤ 1 := by
  rcases h : deriveFn t u with _ | fn
  · simp [dlStep, h, getCount]
  · by_cases h2 : fn ∈ fs
    · simp [dlStep, h, h2, getCount]
    · cases h3 : o.getOk u <;> cases h4 : o.createOk fn <;> cases h5 : o.copyOk fn <;>
        simp [dlStep, h, h2, h3, h4, h5, getCount, List.countP_cons, isGetFor]

theorem dlStep_complete (o : Oracle) (t u : List Char) (fs : List (List Char))
    (fn : List Char) (hd : deriveFn t u = some fn)
    (hab : (dlStep o t u fs).2.2 = false) :
    fn ∈ (dlStep o t u fs).2.1 := by
  by_cases h2 : fn ∈ fs
  · simp [dlStep, hd, h2]
  · cases h3 : o.getOk u <;> cases h4 : o.createOk fn <;> cases h5 : o.copyOk fn <;>
      simp [dlStep, hd, h2, h3, h4, h5] at hab ⊢

theorem dlList_mono (o : Oracle) (t : List Char) :
    ∀ (us : List (List Char)) (fs : List (List Char)),
      fs ⊆ (dlList o t us fs).2.1 := by
  intro us
  induction us with
  | nil => intro fs; simp [dlList]
  | cons u' us ih =>
    intro fs
    have hm := dlStep_mono o t u' fs
    rcases hstep : dlStep o t u' fs with ⟨evs, fs1, ab⟩
    rw [hstep] at hm
    cases ab
    · rcases hrest : dlList o t us fs1 with ⟨evs2, fs2, ab2⟩
      have := ih fs1
      rw [hrest] at this
      simp only [dlList, hstep, hrest]
      exact hm.trans this
    · simp only [dlList, hstep]
      exact hm

/-- Once the derived file is on disk, the rest of the loop never issues a
GET for that URL again. -/
theorem dlList_getCount_zero (o : Oracle) (t u fn : List Char)
    (hd : deriveFn t u = some fn) :
    ∀ (us : List (List Char)) (fs : List (List Char)), fn ∈ fs →
      getCount u (dlList o t us fs).1 = 0 := by
  intro us
  induction us with
  | nil => intro fs _; simp [dlList, getCount]
  | cons u' us ih =>
    intro fs hmem
    by_cases hu : u' = u
    · subst hu
      have hskip := dlStep_skip o t u' fs fn hd hmem
      rcases hrest : dlList o t us fs with ⟨evs2, fs2, ab2⟩
      have h0 := ih fs hmem
      rw [hrest] at h0
      simp only [getCount] at h0 ⊢
      simp [dlList, hskip, hrest, h0]
    · have hother := dlStep_getCount_other o t u' u fs hu
      have hm := dlStep_mono o t u' fs
      rcases hstep : dlStep o t u' fs with ⟨evs, fs1, ab⟩
      rw [hstep] at hother hm
      simp only [getCount] at hother
      cases ab
      · rcases hrest : dlList o t us fs1 with ⟨evs2, fs2, ab2⟩
        have h0 := ih fs1 (hm hmem)
        rw [hrest] at h0
        simp only [getCount] at h0
        simp only [dlList, hstep, hrest, getCount, List.countP_append]
        omega
      · simp only [dlList, hstep, getCount]
        exact hother

/-- At most one download attempt per URL in a single run of the
downloader. -/
theorem dlList_getCount_le_one (o : Oracle) (t u : List Char) :
    ∀ (us : List (List Char)) (fs : List (List Char)),
      getCount u (dlList o t us fs).1 ≤ 1 := by
  intro us
  induction us with
  | nil => intro fs; simp [dlList, getCount]
  | cons u' us ih =>
    intro fs
    rcases hstep : dlStep o t u' fs with ⟨evs, fs1, ab⟩
    cases ab
    case true =>
      simp only [dlList, hstep]
      by_cases hu : u' = u
      · subst hu
        have hle := dlStep_getCount_self o t u' fs
        rw [hstep] at hle
        simpa using hle
      · have h0 := dlStep_getCount_other o t u' u fs hu
        rw [hstep] at h0
        simp only [getCount] at h0 ⊢
        omega
    case false =>
      rcases hrest : dlList o t us fs1 with ⟨evs2, fs2, ab2⟩
      simp only [dlList, hstep, hrest]
      simp only [getCount, List.countP_append]
      by_cases hu : u' = u
      · subst hu
        rcases hd : deriveFn t u' with _ | fn
        · -- a parse failure aborts; contradiction with ab = false
          have habort : dlStep o t u' fs = ([], fs, true) := by simp [dlStep, hd]
          rw [habort] at hstep
          simp at hstep
        · by_cases h2 : fn ∈ fs
          · -- skipped: no GET in this step, and the file stays on disk
            have hskip := dlStep_skip o t u' fs fn hd h2
            have heq := hskip.symm.trans hstep
            simp only [Prod.mk.injEq] at heq
            obtain ⟨he, hf, _⟩ := heq
            subst he hf
            have h0 := dlList_getCount_zero o t u' fn hd us fs h2
            rw [hrest] at h0
            simp only [getCount] at h0
            simp only [List.countP] at h0 ⊢
            simp only [List.countP.go]
            omega
          · -- downloaded: the file is now on disk, the rest has no GET
            have hfin : fn ∈ fs1 := by
              have hc := dlStep_complete o t u' fs fn hd (by rw [hstep])
              rw [hstep] at hc
              exact hc
            have hself := dlStep_getCount_self o t u' fs
            rw [hstep] at hself
            have h0 := dlList_getCount_zero o t u' fn hd us fs1 hfin
            rw [hrest] at h0
            simp only [getCount] at hself h0 ⊢
            omega
      · have hother := dlStep_getCount_other o t u' u fs hu
        rw [hstep] at hother
        have hrle := ih fs1
        rw [hrest] at hrle
        simp only [getCount] at hother hrle ⊢
        omega

/-- After a completed (non-aborted) run of the downloader, the derived
file of every processed URL exists on disk. -/
theorem dlList_complete (o : Oracle) (t : List Char) :
    ∀ (us : List (List Char)) (fs : List (List Char)) (evs : List Ev)
      (fs' : List (List Char)),
      dlList o t us fs = (evs, fs', false) →
      ∀ u ∈ us, ∃ fn, deriveFn t u = some fn ∧ fn ∈ fs' := by
  intro us
  induction us with
  | nil => intro fs evs fs' _ u hu; simp at hu
  | cons u' us ih =>
    intro fs evs fs' h u hu
    rcases hstep : dlStep o t u' fs with ⟨evs1, fs1, ab⟩
    cases ab
    case true =>
      simp only [dlList, hstep] at h
      simp at h
    case false =>
      rcases hrest : dlList o t us fs1 with ⟨evs2, fs2, ab2⟩
      simp only [dlList, hstep, hrest] at h
      simp only [Prod.mk.injEq] at h
      obtain ⟨-, hfs, hab2⟩ := h
      subst hfs
      subst hab2
      rcases List.mem_cons.1 hu with rfl | hu2
      · rcases hd : deriveFn t u with _ | fn
        · have habort : dlStep o t u fs = ([], fs, true) := by simp [dlStep, hd]
          rw [habort] at hstep
          simp at hstep
        · have hc := dlStep_complete o t u fs fn hd (by rw [hstep])
          rw [hstep] at hc
          have hm := dlList_mono o t us fs1
          rw [hrest] at hm
          exact ⟨fn, rfl, hm hc⟩
      · exact ih fs1 evs2 fs2 hrest u hu2

/-- When every processed URL's derived file already exists, the downloader
does nothing: no events, no state change, no abort. -/
theorem dlList_all_present (o : Oracle) (t : List Char) :
    ∀ (us : List (List Char)) (fs : List (List Char)),
      (∀ u ∈ us, ∃ fn, deriveFn t u = some fn ∧ fn ∈ fs) →
      dlList o t us fs = ([], fs, false) := by
  intro us
  induction us with
  | nil => intro fs _; rfl
  | cons u' us ih =>
    intro fs h
    obtain ⟨fn, hd, hmem⟩ := h u' (List.mem_cons_self _ _)
    have hskip := dlStep_skip o t u' fs fn hd hmem
    have hrest := ih fs (fun u hu => h u (List.mem_cons_of_mem _ hu))
    simp [dlList, hskip, hrest]

/-- A URL not in the processed list never receives a GET. -/
theorem dlList_getCount_not_mem (o : Oracle) (t u : List Char) :
    ∀ (us : List (List Char)) (fs : List (List Char)), u ∉ us →
      getCount u (dlList o t us fs).1 = 0 := by
  intro us
  induction us with
  | nil => intro fs _; simp [dlList, getCount]
  | cons u' us ih =>
    intro fs hu
    have hne : u' ≠ u := fun e => hu (e ▸ List.mem_cons_self _ _)
    have hother := dlStep_getCount_other o t u' u fs hne
    rcases hstep : dlStep o t u' fs with ⟨evs, fs1, ab⟩
    rw [hstep] at hother
    cases ab
    case true =>
      simp only [dlList, hstep]
      exact hother
    case false =>
      rcases hrest : dlList o t us fs1 with ⟨evs2, fs2, ab2⟩
      have h0 := ih fs1 (fun hm => hu (List.mem_cons_of_mem _ hm))
      rw [hrest] at h0
      simp only [dlList, hstep, hrest]
      simp only [getCount, List.countP_append] at hother h0 ⊢
      omega

theorem matchScheme_shape (s sch r : List Char)
    (h : matchScheme s = some (sch, r)) :
    sch = ['h', 't', 't', 'p'] ∨ sch = ['h', 't', 't', 'p', 's'] := by
  simp only [matchScheme] at h
  split at h
  · exact absurd h (by simp)
  · split at h
    · right
      injection h with h1
      injection h1 with h2 _
      exact h2.symm
    · left
      injection h with h1
      injection h1 with h2 _
      exact h2.symm

theorem matchHost_shape (kind s host r : List Char)
    (h : matchHost kind s = some (host, r)) :
    ∃ c1 c2 c3 : Char,
      host = trelloLit ++ kind ++ c1 :: 's' :: '3' :: c2 :: amazonawsLit ++
        c3 :: comLit := by
  simp only [matchHost] at h
  split at h
  · exact absurd h (by simp)
  · split at h
    · exact absurd h (by simp)
    · split at h
      · exact absurd h (by simp)
      · split at h
        · exact absurd h (by simp)
        · split at h
          · exact absurd h (by simp)
          · split at h
            · exact absurd h (by simp)
            · split at h
              · exact absurd h (by simp)
              · split at h
                · exact absurd h (by simp)
                · split at h
                  · exact absurd h (by simp)
                  · split at h
                    · exact absurd h (by simp)
                    · split at h
                      · exact absurd h (by simp)
                      · injection h with h1
                        injection h1 with h2 _
                        exact ⟨_, _, _, h2.symm⟩

theorem matchAt_shape (kind s g r : List Char)
    (h : matchAt kind s = some (g, r)) :
    ∃ opt mid : List Char, (opt = [] ∨ opt = ['s']) ∧
      g = ['h', 't', 't', 'p'] ++ opt ++ trelloLit ++ kind ++ mid := by
  simp only [matchAt] at h
  split at h
  · exact absurd h (by simp)
  · split at h
    · exact absurd h (by simp)
    · rename_i s3 _
      split at h
      · exact absurd h (by simp)
      · rename_i pair hsch
        split at h
        · exact absurd h (by simp)
        · rename_i pair2 hhost
          split at h
          · exact absurd h (by simp)
          · rename_i tC tRest rest2 heqSpan
            injection h with h1
            injection h1 with h2 _
            obtain ⟨c1, c2, c3, hh⟩ := matchHost_shape _ _ _ _ hhost
            rcases matchScheme_shape _ _ _ hsch with hs | hs <;>
              [refine ⟨[], c1 :: 's' :: '3' :: c2 :: amazonawsLit ++
                  c3 :: comLit ++ tC :: tRest, Or.inl rfl, ?_⟩;
               refine ⟨['s'], c1 :: 's' :: '3' :: c2 :: amazonawsLit ++
                  c3 :: comLit ++ tC :: tRest, Or.inr rfl, ?_⟩] <;>
              simp [← h2, hh, hs, List.append_assoc]
          · exact absurd h (by simp)

theorem findAllAux_mem (kind : List Char) :
    ∀ (n : Nat) (s g : List Char), g ∈ findAllAux kind n s →
      ∃ s' r, matchAt kind s' = some (g, r) := by
  intro n
  induction n with
  | zero => intro s g hg; simp [findAllAux] at hg
  | succ n ih =>
    intro s g hg
    cases s with
    | nil => simp [findAllAux] at hg
    | cons c cs =>
      rcases hm : matchAt kind (c :: cs) with _ | ⟨g0, r0⟩
      · rw [show findAllAux kind (n + 1) (c :: cs) = findAllAux kind n cs from by
          simp [findAllAux, hm]] at hg
        exact ih cs g hg
      · rw [show findAllAux kind (n + 1) (c :: cs)
            = g0 :: findAllAux kind n r0 from by simp [findAllAux, hm]] at hg
        rcases List.mem_cons.1 hg with rfl | hg2
        · exact ⟨c :: cs, r0, hm⟩
        · exact ih r0 g hg2

/-- A string cannot be extracted both as an attachments URL and as a
backgrounds URL: the kind name is at a fixed offset in the match. -/
theorem findAll_kinds_disjoint (doc u : List Char)
    (hA : u ∈ findAll attachmentsK doc) (hB : u ∈ findAll backgroundsK doc) :
    False := by
  obtain ⟨sA, rA, hmA⟩ := findAllAux_mem attachmentsK _ doc u hA
  obtain ⟨sB, rB, hmB⟩ := findAllAux_mem backgroundsK _ doc u hB
  obtain ⟨optA, midA, hoptA, hgA⟩ := matchAt_shape attachmentsK sA u rA hmA
  obtain ⟨optB, midB, hoptB, hgB⟩ := matchAt_shape backgroundsK sB u rB hmB
  have heq := hgA.symm.trans hgB
  rcases hoptA with rfl | rfl <;> rcases hoptB with rfl | rfl <;>
    simp [attachmentsK, backgroundsK, trelloLit, List.cons_append,
      List.nil_append] at heq

/-- After a completed asset phase, re-running the asset phase on the same
document does nothing at all: no events, no state change. -/
theorem runAssets_second_empty (o : Oracle) (doc : List Char)
    (fs : List (List Char)) (ev1 : List Ev) (fs1 : List (List Char))
    (h : runAssets o doc fs = (ev1, fs1, false)) :
    runAssets o doc fs1 = ([], fs1, false) := by
  rcases hA : dlList o attachmentsK (findAll attachmentsK doc) fs with ⟨evA, fsA, abA⟩
  cases abA
  case true =>
    simp only [runAssets, hA] at h
    simp at h
  case false =>
    rcases hB : dlList o backgroundsK (findAll backgroundsK doc) fsA with ⟨evB, fsB, abB⟩
    simp only [runAssets, hA, hB] at h
    simp only [Prod.mk.injEq] at h
    obtain ⟨-, hfs, hab⟩ := h
    subst hfs
    subst hab
    have hAc := dlList_complete o attachmentsK _ fs evA fsA hA
    have hBc := dlList_complete o backgroundsK _ fsA evB fsB hB
    have hmB := dlList_mono o backgroundsK (findAll backgroundsK doc) fsA
    rw [hB] at hmB
    have hPresA : ∀ u ∈ findAll attachmentsK doc,
        ∃ fn, deriveFn attachmentsK u = some fn ∧ fn ∈ fsB := by
      intro u hu
      obtain ⟨fn, h1, h2⟩ := hAc u hu
      exact ⟨fn, h1, hmB h2⟩
    have e1 := dlList_all_present o attachmentsK _ fsB hPresA
    have e2 := dlList_all_present o backgroundsK _ fsB hBc
    simp [runAssets, e1, e2]

/-- C2 (amended): (1) a URL whose derived file already exists is skipped
with no network call and no file write, by the existence check alone;
(2) at most one download attempt per URL per downloader run; (3) running
the asset phase twice over the same export makes the second run perform
zero network calls (and no effects at all), so each unique asset URL is
attempted at most once across both runs.  ("Exactly once" fails: two
distinct URLs — e.g. the http and https variants of one path — derive the
same local filename and share a single attempt; see the
counterexample.) -/
theorem downloader_idempotent (o : Oracle) (t u fn : List Char)
    (us : List (List Char)) (fs : List (List Char)) (doc : List Char) :
    (deriveFn t u = some fn → fn ∈ fs → dlStep o t u fs = ([], fs, false)) ∧
    getCount u (dlList o t us fs).1 ≤ 1 ∧
    (∀ ev1 fs1, runAssets o doc fs = (ev1, fs1, false) →
      runAssets o doc fs1 = ([], fs1, false) ∧
      getCount u (ev1 ++ (runAssets o doc fs1).1) ≤ 1) := by
  refine ⟨dlStep_skip o t u fs fn, dlList_getCount_le_one o t u us fs, ?_⟩
  intro ev1 fs1 h
  have hsecond := runAssets_second_empty o doc fs ev1 fs1 h
  refine ⟨hsecond, ?_⟩
  rw [hsecond]
  rcases hA : dlList o attachmentsK (findAll attachmentsK doc) fs with ⟨evA, fsA, abA⟩
  cases abA
  case true =>
    simp only [runAssets, hA] at h
    simp at h
  case false =>
    rcases hB : dlList o backgroundsK (findAll backgroundsK doc) fsA with ⟨evB, fsB, abB⟩
    simp only [runAssets, hA, hB] at h
    simp only [Prod.mk.injEq] at h
    obtain ⟨hev, -, -⟩ := h
    subst hev
    have cA := dlList_getCount_le_one o attachmentsK u (findAll attachmentsK doc) fs
    rw [hA] at cA
    have cB := dlList_getCount_le_one o backgroundsK u (findAll backgroundsK doc) fsA
    rw [hB] at cB
    by_cases huA : u ∈ findAll attachmentsK doc
    · by_cases huB : u ∈ findAll backgroundsK doc
      · exact (findAll_kinds_disjoint doc u huA huB).elim
      · have c0 := dlList_getCount_not_mem o backgroundsK u _ fsA huB
        rw [hB] at c0
        simp only [getCount, List.countP_append] at cA c0 ⊢
        simp only [List.countP_nil]
        omega
    · have c0 := dlList_getCount_not_mem o attachmentsK u _ fs huA
      rw [hA] at c0
      simp only [getCount, List.countP_append] at cB c0 ⊢
      simp only [List.countP_nil]
      omega

theorem downloader_idempotent_witness :
    (dlStep allOk attachmentsK
        "https://trello-attachments.s3.amazonaws.com/a".toList
        ["attachments/_a".toList]
      = ([], ["attachments/_a".toList], false)) ∧
    getCount "https://trello-attachments.s3.amazonaws.com/a".toList
        (dlList allOk attachmentsK
          ["https://trello-attachments.s3.amazonaws.com/a".toList,
           "https://trello-attachments.s3.amazonaws.com/a".toList] []).1 ≤ 1 ∧
    (runAssets allOk
        "(\"url\": \"https://trello-attachments.s3.amazonaws.com/a\")".toList
        ["attachments/_a".toList]
      = ([], ["attachments/_a".toList], false) ∧
     getCount "https://trello-attachments.s3.amazonaws.com/a".toList
        ([] ++ (runAssets allOk
          "(\"url\": \"https://trello-attachments.s3.amazonaws.com/a\")".toList
          ["attachments/_a".toList]).1) ≤ 1) := by
  refine ⟨?_, ?_, ?_⟩
  · exact (downloader_idempotent allOk attachmentsK
      "https://trello-attachments.s3.amazonaws.com/a".toList
      "attachments/_a".toList [] ["attachments/_a".toList] []).1
      (by decide) (by decide)
  · exact (downloader_idempotent allOk attachmentsK
      "https://trello-attachments.s3.amazonaws.com/a".toList
      "attachments/_a".toList
      ["https://trello-attachments.s3.amazonaws.com/a".toList,
       "https://trello-attachments.s3.amazonaws.com/a".toList] []
      "".toList).2.1
  · exact (downloader_idempotent allOk attachmentsK
      "https://trello-attachments.s3.amazonaws.com/a".toList
      "attachments/_a".toList [] ["attachments/_a".toList]
      "(\"url\": \"https://trello-attachments.s3.amazonaws.com/a\")".toList).2.2
      [] ["attachments/_a".toList] (by decide)

/-- C2 counterexample: the http and https variants of the same path are
two distinct asset URLs, both extracted from the document, but they
derive the same local filename; across two full runs of the asset phase
the second URL receives zero download attempts — not exactly one. -/
theorem downloader_exactly_once_counterexample :
    ("http://trello-attachments.s3.amazonaws.com/a".toList ≠
       "https://trello-attachments.s3.amazonaws.com/a".toList) ∧
    findAll attachmentsK
        "(\"url\": \"http://trello-attachments.s3.amazonaws.com/a\", \"url\": \"https://trello-attachments.s3.amazonaws.com/a\")".toList
      = ["http://trello-attachments.s3.amazonaws.com/a".toList,
         "https://trello-attachments.s3.amazonaws.com/a".toList] ∧
    (runAssets allOk
        "(\"url\": \"http://trello-attachments.s3.amazonaws.com/a\", \"url\": \"https://trello-attachments.s3.amazonaws.com/a\")".toList
        []).2.2 = false ∧
    getCount "https://trello-attachments.s3.amazonaws.com/a".toList
        ((runAssets allOk
          "(\"url\": \"http://trello-attachments.s3.amazonaws.com/a\", \"url\": \"https://trello-attachments.s3.amazonaws.com/a\")".toList
          []).1
         ++ (runAssets allOk
          "(\"url\": \"http://trello-attachments.s3.amazonaws.com/a\", \"url\": \"https://trello-attachments.s3.amazonaws.com/a\")".toList
          (runAssets allOk
            "(\"url\": \"http://trello-attachments.s3.amazonaws.com/a\", \"url\": \"https://trello-attachments.s3.amazonaws.com/a\")".toList
            []).2.1).1) = 0 := by
  refine ⟨by decide, by decide, by decide, by decide⟩

/-- C6 (amended): for an asset URL whose derived file does not exist, the
downloader issues the GET *first*, then creates the kind directory
(discarding any directory-creation error), then creates the file and
streams the body.  A transport error, a file-creation error, or a
stream-copy error aborts the whole run at that point (the loop processes
no further URL); a failed copy leaves the created (truncated) file on
disk with no cleanup, and the run state is otherwise unchanged. -/
theorem download_effect_order_and_fatality (o : Oracle) (t u : List Char)
    (fs : List (List Char)) (fn : List Char) (us : List (List Char))
    (hd : deriveFn t u = some fn) (hne : fn ∉ fs) :
    (o.getOk u = false →
      dlStep o t u fs = ([Ev.getAsset u], fs, true) ∧
      dlList o t (u :: us) fs = ([Ev.getAsset u], fs, true)) ∧
    (o.getOk u = true → o.createOk fn = false →
      dlStep o t u fs = ([Ev.getAsset u, Ev.mkdir t, Ev.createFile fn], fs, true) ∧
      dlList o t (u :: us) fs
        = ([Ev.getAsset u, Ev.mkdir t, Ev.createFile fn], fs, true)) ∧
    (o.getOk u = true → o.createOk fn = true → o.copyOk fn = false →
      dlStep o t u fs
        = ([Ev.getAsset u, Ev.mkdir t, Ev.createFile fn, Ev.copyBody fn],
           fn :: fs, true) ∧
      fn ∈ (dlStep o t u fs).2.1) ∧
    (o.getOk u = true → o.createOk fn = true → o.copyOk fn = true →
      dlStep o t u fs
        = ([Ev.getAsset u, Ev.mkdir t, Ev.createFile fn, Ev.copyBody fn],
           fn :: fs, false)) ∧
    (∀ b : List Char → Bool,
      dlStep { o with mkdirOk := b } t u fs = dlStep o t u fs) := by
  refine ⟨?_, ?_, ?_, ?_, ?_⟩
  · intro h3
    constructor
    · simp [dlStep, hd, hne, h3]
    · simp [dlList, dlStep, hd, hne, h3]
  · intro h3 h4
    constructor
    · simp [dlStep, hd, hne, h3, h4]
    · simp [dlList, dlStep, hd, hne, h3, h4]
  · intro h3 h4 h5
    constructor
    · simp [dlStep, hd, hne, h3, h4, h5]
    · simp [dlStep, hd, hne, h3, h4, h5]
  · intro h3 h4 h5
    simp [dlStep, hd, hne, h3, h4, h5]
  · intro b
    rfl

theorem download_effect_order_and_fatality_witness :
    (dlStep { allOk with getOk := fun _ => false } attachmentsK
        "https://trello-attachments.s3.amazonaws.com/a".toList []
      = ([Ev.getAsset "https://trello-attachments.s3.amazonaws.com/a".toList],
         [], true)) ∧
    (dlStep { allOk with copyOk := fun _ => false } attachmentsK
        "https://trello-attachments.s3.amazonaws.com/a".toList []).2.1
      = ["attachments/_a".toList] := by
  constructor
  · exact ((download_effect_order_and_fatality
      { allOk with getOk := fun _ => false } attachmentsK
      "https://trello-attachments.s3.amazonaws.com/a".toList []
      "attachments/_a".toList [] (by decide) (by decide)).1 (by decide)).1
  · have h := ((download_effect_order_and_fatality
      { allOk with copyOk := fun _ => false } attachmentsK
      "https://trello-attachments.s3.amazonaws.com/a".toList []
      "attachments/_a".toList [] (by decide) (by decide)).2.2.1
      (by decide) (by decide) (by decide)).1
    rw [h]

/-- C6 counterexample: with a (hypothetically always-failing)
`os.MkdirAll`, the downloader's first effect for a fresh URL is the
network GET — not the directory creation — and the directory-creation
failure does not abort the run: the step completes successfully.  This
refutes both the claimed effect order (directory first, then GET) and the
claim that a directory-creation error is fatal. -/
theorem download_order_counterexample :
    (dlStep { allOk with mkdirOk := fun _ => false } attachmentsK
        "https://trello-attachments.s3.amazonaws.com/a".toList []).1.head?
      = some (Ev.getAsset "https://trello-attachments.s3.amazonaws.com/a".toList) ∧
    Ev.getAsset "https://trello-attachments.s3.amazonaws.com/a".toList
      ≠ Ev.mkdir attachmentsK ∧
    (dlStep { allOk with mkdirOk := fun _ => false } attachmentsK
        "https://trello-attachments.s3.amazonaws.com/a".toList []).2.2 = false := by
  refine ⟨by decide, by decide, by decide⟩

/-- C7: a board with `closed = true` is only logged: no export request, no
file write, no asset download, no state change — and the loop continues
with the remaining boards exactly as if the closed board were processed
alone. -/
theorem closed_board_skipped (o : Oracle) (tm user : List Char) (b : Board)
    (bs : List Board) (fs : List (List Char)) (h : b.Closed = true) :
    processBoard o tm user b fs = ([Ev.logSkip b.ID], fs, false) ∧
    (∀ e ∈ (processBoard o tm user b fs).1, e = Ev.logSkip b.ID) ∧
    runBoards o tm user (b :: bs) fs
      = (Ev.logSkip b.ID :: (runBoards o tm user bs fs).1,
         (runBoards o tm user bs fs).2.1, (runBoards o tm user bs fs).2.2) := by
  refine ⟨by simp [processBoard, h], by simp [processBoard, h], ?_⟩
  rcases hr : runBoards o tm user bs fs with ⟨ev2, fs2, ab⟩
  simp [runBoards, processBoard, h, hr]

theorem closed_board_skipped_witness :
    processBoard allOk "tm".toList "user".toList
        { ShortURL := "https://trello.com/b/x".toList, ShortLink := "x".toList,
          ID := "id1".toList, Name := "B".toList, Closed := true } []
      = ([Ev.logSkip "id1".toList], [], false) ∧
    runBoards allOk "tm".toList "user".toList
        [{ ShortURL := "https://trello.com/b/x".toList, ShortLink := "x".toList,
           ID := "id1".toList, Name := "B".toList, Closed := true }] []
      = (Ev.logSkip "id1".toList
           :: (runBoards allOk "tm".toList "user".toList [] []).1,
         (runBoards allOk "tm".toList "user".toList [] []).2.1,
         (runBoards allOk "tm".toList "user".toList [] []).2.2) := by
  constructor
  · exact (closed_board_skipped allOk "tm".toList "user".toList
      { ShortURL := "https://trello.com/b/x".toList, ShortLink := "x".toList,
        ID := "id1".toList, Name := "B".toList, Closed := true } [] []
      (by decide)).1
  · exact (closed_board_skipped allOk "tm".toList "user".toList
      { ShortURL := "https://trello.com/b/x".toList, ShortLink := "x".toList,
        ID := "id1".toList, Name := "B".toList, Closed := true } [] []
      (by decide)).2.2

/-- C3: if the first authentication response signals a second-factor
requirement: with no TOTP secret the run fails after that single request
(no further network call); with a secret, exactly one additional request
is issued, carrying the code computed from the secret.  In every possible
run the authentication phase issues at most two requests, i.e. never more
than one resubmission. -/
theorem second_factor_flow (totp : List Char)
    (computeCode : List Char → List Char) (r1 r2 : Option AuthObj)
    (e : List Char) (h1 : getAuthenticationM r1 = Except.error e)
    (h2 : containsL twoFactorLit e = true) :
    (totp = [] →
      authPhase totp computeCode r1 r2
        = ([Ev.authReq none], Except.error "second factor required".toList)) ∧
    (totp ≠ [] →
      (authPhase totp computeCode r1 r2).1
        = [Ev.authReq none, Ev.authReq (some (computeCode totp))]) ∧
    (∀ (totp' : List Char) (r1' r2' : Option AuthObj),
      (authPhase totp' computeCode r1' r2').1.length ≤ 2) := by
  refine ⟨?_, ?_, ?_⟩
  · intro ht
    simp [authPhase, h1, h2, ht]
  · intro ht
    simp [authPhase, h1, h2, ht]
  · intro totp' r1' r2'
    rcases ha : getAuthenticationM r1' with e' | c'
    · by_cases hc : containsL twoFactorLit e' = true
      · by_cases ht : totp' = [] <;> simp [authPhase, ha, hc, ht]
      · simp [authPhase, ha, hc]
    · simp [authPhase, ha]

theorem second_factor_flow_witness :
    (authPhase [] (fun s => s)
        (some { Code := [], Error := "TWO_FACTOR_MISSING".toList }) none
      = ([Ev.authReq none], Except.error "second factor required".toList)) ∧
    (authPhase "secret".toList (fun s => s)
        (some { Code := [], Error := "TWO_FACTOR_MISSING".toList })
        (some { Code := "code".toList, Error := [] })).1
      = [Ev.authReq none, Ev.authReq (some "secret".toList)] := by
  constructor
  · exact (second_factor_flow [] (fun s => s)
      (some { Code := [], Error := "TWO_FACTOR_MISSING".toList }) none
      ("api error: ".toList ++ "TWO_FACTOR_MISSING".toList)
      (by rfl) (by decide)).1 rfl
  · exact (second_factor_flow "secret".toList (fun s => s)
      (some { Code := [], Error := "TWO_FACTOR_MISSING".toList })
      (some { Code := "code".toList, Error := [] })
      ("api error: ".toList ++ "TWO_FACTOR_MISSING".toList)
      (by rfl) (by decide)).2.1 (by decide)

/-- C9: a decoded authentication response with an empty `Error` field is
accepted, and its `Code` field is returned without error even when it is
the empty string; the flow then proceeds to session establishment using
that empty code. -/
theorem empty_auth_code_accepted (obj : AuthObj) (h : obj.Error = []) :
    getAuthenticationM (some obj) = Except.ok obj.Code ∧
    (∀ (token : List Char) (computeCode : List Char → List Char)
       (r2 : Option AuthObj),
      credFlow [] token computeCode (some { Code := [], Error := [] }) r2 true
        = ([Ev.authReq none, Ev.sessionReq [] token], none)) := by
  constructor
  · simp [getAuthenticationM, h]
  · intro token computeCode r2
    rfl

theorem empty_auth_code_accepted_witness :
    getAuthenticationM (some { Code := [], Error := [] }) = Except.ok [] ∧
    credFlow [] "tok".toList (fun s => s)
        (some { Code := [], Error := [] }) none true
      = ([Ev.authReq none, Ev.sessionReq [] "tok".toList], none) := by
  constructor
  · exact (empty_auth_code_accepted { Code := [], Error := [] } rfl).1
  · exact (empty_auth_code_accepted { Code := [], Error := [] } rfl).2
      "tok".toList (fun s => s) none

/-- C5 (amended): malformed JSON is fatal for both account queries, and a
non-success HTTP status is fatal for `getUsername`; but `getBoards` never
inspects the status, so a non-success response whose body still decodes
as a JSON list is returned without error. -/
theorem account_query_errors (status : Nat) (du : Option (List Char))
    (db : Option (List Board)) (bs : List Board) :
    (du = none → ∃ e, getUsernameM status du = Except.error e) ∧
    (status ≠ 200 → ∃ e, getUsernameM status du = Except.error e) ∧
    (db = none → ∃ e, getBoardsM status db = Except.error e) ∧
    getBoardsM status (some bs) = Except.ok bs := by
  refine ⟨?_, ?_, ?_, rfl⟩
  · intro h
    subst h
    by_cases hs : status = 200 <;> simp [getUsernameM, hs]
  · intro h
    refine ⟨"response status".toList, ?_⟩
    simp [getUsernameM, h]
  · intro h
    subst h
    exact ⟨_, rfl⟩

theorem account_query_errors_witness :
    (∃ e, getUsernameM 200 none = Except.error e) ∧
    (∃ e, getUsernameM 500 (some "u".toList) = Except.error e) ∧
    (∃ e, getBoardsM 500 none = Except.error e) ∧
    getBoardsM 500 (some []) = Except.ok [] := by
  refine ⟨?_, ?_, ?_, ?_⟩
  · exact (account_query_errors 200 none none []).1 rfl
  · exact (account_query_errors 500 (some "u".toList) none []).2.1 (by decide)
  · exact (account_query_errors 500 none none []).2.2.1 rfl
  · exact (account_query_errors 500 none none []).2.2.2

/-- C5 counterexample: a boards-list response with HTTP status 500 whose
body decodes as the empty JSON list is returned *without* error —
refuting "for every response with non-success HTTP status, the
boards-list fetch returns an error". -/
theorem boards_status_not_checked_counterexample :
    (500 ≠ 200) ∧ getBoardsM 500 (some []) = Except.ok [] := by
  exact ⟨by decide, rfl⟩
